import Mathlib

/-!
Verification of the gaepsi domain-decomposition core (`src/domain.py`).

The embedding below translates the three components of `domain.py`:

* `Rotator` (the ordered-barrier scoped region) becomes a pair of
  communication traces listing the `Barrier` calls issued by `__enter__`
  and `__exit__`.
* `Layout` (the all-to-all exchange layout) becomes a `Layout` structure
  holding every rank's send-count vector and gather-index sequence; the
  collective `Alltoall` of counts and the `Alltoallv` of payload data are
  modelled as pure functions of the global state, one result list entry
  per rank.
* `GridND.decompose` becomes `decompose`, built from `digitize`
  (modelling `numpy.digitize` on sorted bins), `numpy.remainder`,
  `numpy.clip`, and the two-pass count/fill kernel.  The Cython kernel
  `_domain.gridnd_fill` is not part of the sources, so it is modelled
  from the spec (see `destRanks`, `countsOf`, `indicesOf`).

Coordinates are embedded as rationals; machine `i2` (int16) storage of
bin indices is modelled explicitly by `toI16`.
-/

namespace Gaepsi

/-! ## List helpers -/

/-- Running inclusive sum of a list, as `numpy.cumsum`. -/
def cumsum : List Nat → List Nat
  | [] => []
  | x :: xs => x :: (cumsum xs).map (x + ·)

/-- Offsets array as built in `Layout.__init__`: an all-zero array whose
tail is overwritten with `counts.cumsum()[:-1]`. -/
def offsetsOf : List Nat → List Nat
  | [] => []
  | x :: xs => 0 :: (cumsum (x :: xs)).dropLast

/-- A contiguous slice of `c` items starting at offset `off`, as read by
`Alltoallv` from a send buffer. -/
def seg (l : List α) (off c : Nat) : List α := (l.drop off).take c

theorem cumsum_length (l : List Nat) : (cumsum l).length = l.length := by
  induction l with
  | nil => rfl
  | cons x xs ih => simp [cumsum, ih]

theorem cumsum_ne_nil (x : Nat) (xs : List Nat) : cumsum (x :: xs) ≠ [] := by
  simp [cumsum]

theorem cumsum_getElem? (l : List Nat) (k : Nat) (h : k < l.length) :
    (cumsum l)[k]? = some ((l.take (k + 1)).sum) := by
  induction l generalizing k with
  | nil => simp at h
  | cons x xs ih =>
    cases k with
    | zero => simp [cumsum]
    | succ k =>
      have hk : k < xs.length := by simpa using h
      rw [cumsum, List.getElem?_cons_succ, List.getElem?_map, ih k hk]
      simp [List.take_succ_cons]

theorem offsetsOf_length (l : List Nat) : (offsetsOf l).length = l.length := by
  cases l with
  | nil => rfl
  | cons x xs =>
    simp [offsetsOf, List.length_dropLast, cumsum_length]

theorem getD_map_range (f : Nat → β) (n r : Nat) (d : β) (h : r < n) :
    ((List.range n).map f).getD r d = f r := by
  rw [List.getD_eq_getElem?_getD, List.getElem?_map, List.getElem?_range h]
  rfl

theorem map_getD_range (l : List α) (d : α) :
    (List.range l.length).map (fun i => l.getD i d) = l := by
  induction l with
  | nil => rfl
  | cons x xs ih =>
    rw [List.length_cons, List.range_succ_eq_map, List.map_cons, List.map_map]
    have htail : (List.range xs.length).map ((fun i => (x :: xs).getD i d) ∘ Nat.succ) = xs := by
      have hcong : (List.range xs.length).map ((fun i => (x :: xs).getD i d) ∘ Nat.succ)
          = (List.range xs.length).map (fun i => xs.getD i d) := by
        apply List.map_congr_left
        intro k _
        rfl
      rw [hcong, ih]
    rw [htail]
    simp [List.getD_cons_zero]

theorem getElem?_dropLast_of_lt (l : List α) (k : Nat) (h : k + 1 < l.length) :
    (l.dropLast)[k]? = l[k]? := by
  induction l generalizing k with
  | nil => simp at h
  | cons x xs ih =>
    cases xs with
    | nil => simp at h
    | cons y ys =>
      cases k with
      | zero => simp [List.dropLast_cons₂]
      | succ k =>
        have hk : k + 1 < (y :: ys).length := by simpa using h
        rw [List.dropLast_cons₂, List.getElem?_cons_succ, List.getElem?_cons_succ]
        exact ih k hk

theorem offsetsOf_getD (l : List Nat) (k : Nat) (h : k < l.length) :
    (offsetsOf l).getD k 0 = (l.take k).sum := by
  cases l with
  | nil => simp at h
  | cons x xs =>
    cases k with
    | zero => simp [offsetsOf]
    | succ k =>
      have hk : k + 1 < (x :: xs).length := h
      rw [offsetsOf, List.getD_eq_getElem?_getD, List.getElem?_cons_succ,
        getElem?_dropLast_of_lt _ _ (by rw [cumsum_length]; exact hk),
        cumsum_getElem? _ _ (Nat.lt_of_succ_lt hk)]
      rfl

theorem sum_take_add_getD_le (l : List Nat) (k : Nat) (h : k < l.length) :
    (l.take k).sum + l.getD k 0 ≤ l.sum := by
  have h1 : (l.take (k + 1)).sum = (l.take k).sum + l[k] := List.sum_take_succ l k h
  have h2 : l.getD k 0 = l[k] := by
    rw [List.getD_eq_getElem?_getD, List.getElem?_eq_getElem h]; rfl
  have h3 : (l.take (k + 1)).sum + (l.drop (k + 1)).sum = l.sum :=
    List.sum_take_add_sum_drop l (k + 1)
  omega

theorem seg_length (l : List α) (off c : Nat) (h : off + c ≤ l.length) :
    (seg l off c).length = c := by
  simp only [seg, List.length_take, List.length_drop]
  omega

theorem seg_shift (l : List α) (a off c : Nat) :
    seg l (a + off) c = seg (l.drop a) off c := by
  simp [seg, List.drop_drop]

/-- Concatenating the per-destination slices of a buffer, at offsets given
by the exclusive running sums of `counts`, reassembles the whole buffer
when the counts sum to the buffer length. -/
theorem seg_flatten_partition (counts : List Nat) (l : List α)
    (h : counts.sum = l.length) :
    ((List.range counts.length).map
      (fun k => seg l ((counts.take k).sum) (counts.getD k 0))).flatten = l := by
  induction counts generalizing l with
  | nil => simpa using (List.length_eq_zero.mp h.symm).symm
  | cons c cs ih =>
    rw [List.length_cons, List.range_succ_eq_map, List.map_cons, List.map_map,
      List.flatten_cons]
    have hc : c ≤ l.length := by
      rw [List.sum_cons] at h; omega
    have htail :
        (List.range cs.length).map
            ((fun k => seg l ((List.take k (c :: cs)).sum) ((c :: cs).getD k 0)) ∘ Nat.succ) =
        (List.range cs.length).map (fun k => seg (l.drop c) ((cs.take k).sum) (cs.getD k 0)) := by
      apply List.map_congr_left
      intro k _
      simp only [Function.comp_apply, List.take_succ_cons, List.sum_cons, List.getD_cons_succ,
        Nat.succ_eq_add_one]
      exact seg_shift l c ((cs.take k).sum) (cs.getD k 0)
    rw [htail, ih (l.drop c) (by rw [List.sum_cons] at h; rw [List.length_drop]; omega)]
    simp only [List.take_zero, List.sum_nil, List.getD_cons_zero, seg, List.drop_zero]
    exact List.take_append_drop c l

/-- Reading a slice of a flattened list of blocks at the offset given by the
lengths of the preceding blocks returns exactly the selected block. -/
theorem seg_flatten_block (B : List (List α)) (r : Nat) (h : r < B.length) :
    seg B.flatten (((B.take r).map List.length).sum) ((B.getD r []).length) = B.getD r [] := by
  induction B generalizing r with
  | nil => simp at h
  | cons b bs ih =>
    cases r with
    | zero =>
      simp only [List.take_zero, List.map_nil, List.sum_nil, List.getD_cons_zero,
        List.flatten_cons, seg, List.drop_zero]
      exact List.take_left b bs.flatten
    | succ r =>
      have hr : r < bs.length := by simpa using h
      simp only [List.take_succ_cons, List.map_cons, List.sum_cons, List.getD_cons_succ,
        List.flatten_cons]
      rw [seg_shift]
      rw [List.drop_left b bs.flatten]
      exact ih r hr

theorem getD_replicate_lt (n i : Nat) (a d : α) (h : i < n) :
    (List.replicate n a).getD i d = a := by
  rw [List.getD_eq_getElem?_getD, List.getElem?_eq_getElem (by simpa using h)]
  simp

/-! ## Rotator (`domain.py` lines 10-20): the ordered-barrier scoped region

Each element of a trace is one call into the communicator.  `Rotator`
only ever calls `Barrier`; the `dataXfer` constructor exists so that
"no data is exchanged" is a contentful statement about the traces. -/

/-- One communicator call: a barrier, or a data-carrying collective. -/
inductive CommOp where
  | barrier : CommOp
  | dataXfer : CommOp
deriving DecidableEq

/-- Trace of communicator calls made by `Rotator.__enter__` for a process
of the given rank: one `Barrier()`, then `Barrier()` once per iteration
of `for i in range(rank)`. -/
def rotEnterTrace (rank : Nat) : List CommOp :=
  CommOp.barrier :: (List.range rank).map (fun _ => CommOp.barrier)

/-- Trace of communicator calls made by `Rotator.__exit__`: `Barrier()`
once per iteration of `for i in range(rank, size)`, then one final
`Barrier()`. -/
def rotExitTrace (rank size : Nat) : List CommOp :=
  ((List.range' rank (size - rank)).map (fun _ => CommOp.barrier)) ++ [CommOp.barrier]

/-- Claim C5, counterexample.  The claim states that on entry rank `r`
waits through exactly `r` synchronization rounds; at rank `0` the entry
trace nevertheless contains a barrier call (the unconditional initial
`Barrier()`), so the entry-barrier count is `1`, not `0`. -/
theorem rotator_entry_rounds_cex : ¬ ((rotEnterTrace 0).length = 0) := by
  decide

/-- Claim C5, amended.  In the ordered-barrier scoped region, on entry
rank `r` issues one initial synchronization followed by `r` preceding
rounds (`r + 1` barrier calls in total), and on exit it issues the
`P - r` remaining rounds for ranks `r..P-1` plus exactly one final
synchronization; every call in both traces is a barrier, so no data is
exchanged by the construct. -/
theorem rotator_trace_spec (r P : Nat) :
    rotEnterTrace r = List.replicate (r + 1) CommOp.barrier ∧
    rotExitTrace r P = List.replicate ((P - r) + 1) CommOp.barrier := by
  constructor
  · rw [rotEnterTrace, List.map_const', List.length_range, List.replicate_succ]
  · rw [rotExitTrace, List.map_const', List.length_range', ← List.replicate_succ']

/-! ## Layout (`domain.py` lines 22-95): the all-to-all exchange layout

The SPMD system is modelled globally: a `Layout` holds every rank's
send-count vector (`sendcounts`, one row per rank, row length = process
count) and every rank's gather-index sequence (`indices`).  The
collective `Alltoall` of the count vectors in `Layout.__init__` is the
pure fact `recvcounts[r][s] = sendcounts[s][r]`, captured by
`Layout.recvrow`.  Offsets, `oldlength` and `newlength` are computed
exactly as in `__init__` (`offsets[1:] = counts.cumsum()[:-1]`,
`oldlength = sendcounts.sum()`, `newlength = recvcounts.sum()`). -/

/-- Global state of `Layout` objects built collectively on every rank. -/
structure Layout where
  size : Nat
  sendcounts : List (List Nat)
  indices : List (List Nat)
deriving DecidableEq

namespace Layout

/-- Rank `r`'s send-count vector (`self.sendcounts` on rank `r`). -/
def sendrow (L : Layout) (r : Nat) : List Nat := L.sendcounts.getD r []

/-- Rank `r`'s gather-index sequence (`self.indices` on rank `r`). -/
def idx (L : Layout) (r : Nat) : List Nat := L.indices.getD r []

/-- Rank `r`'s receive-count vector, as produced by the collective
`Alltoall(sendcounts, recvcounts)`: entry `s` is what rank `s` sends to
rank `r`. -/
def recvrow (L : Layout) (r : Nat) : List Nat :=
  (List.range L.size).map (fun s => (L.sendrow s).getD r 0)

/-- Rank `r`'s send offsets (`self.sendoffsets`). -/
def sendoff (L : Layout) (r : Nat) : List Nat := offsetsOf (L.sendrow r)

/-- Rank `r`'s receive offsets (`self.recvoffsets`). -/
def recvoff (L : Layout) (r : Nat) : List Nat := offsetsOf (L.recvrow r)

/-- Rank `r`'s `self.oldlength = self.sendcounts.sum()`. -/
def oldlength (L : Layout) (r : Nat) : Nat := (L.sendrow r).sum

/-- Rank `r`'s `self.newlength = self.recvcounts.sum()`. -/
def newlength (L : Layout) (r : Nat) : Nat := (L.recvrow r).sum

/-- Well-formedness of a collectively built layout: one row of counts and
one index sequence per rank, each count row sized to the process count,
and each index sequence exactly as long as the total send count (which
holds for every layout built by `GridND.decompose`). -/
def WF (L : Layout) : Prop :=
  L.sendcounts.length = L.size ∧ L.indices.length = L.size ∧
  ∀ r, r < L.size → (L.sendrow r).length = L.size ∧ (L.idx r).length = L.oldlength r

instance (L : Layout) : Decidable L.WF := by
  unfold WF
  infer_instance

end Layout

/-- One rank's payload array for a single `exchange` call: the numpy
dtype descriptor string (`data.dtype.str`), the trailing shape
(`data.shape[1:]`), and the leading-axis items (each item is one
per-particle record of `data`). -/
structure RankData (α : Type) where
  dtypeStr : String
  trailingShape : List Nat
  items : List α
deriving DecidableEq

/-- Default `RankData`, used only to total `List.getD` lookups. -/
def RankData.dfl : RankData α := ⟨"", [], []⟩

/-- Failure modes of `Layout.exchange`.  The code raises a `TypeError`
when the gathered dtype strings differ and numpy raises an index error
when `data.take` meets an out-of-range index; `lengthMismatch` is the
`LengthMismatchError` of the spec's taxonomy, listed here so that its
absence from the code is a statable fact. -/
inductive ExchError where
  | typeMismatch : List String → ExchError
  | indexOutOfRange : ExchError
  | lengthMismatch : ExchError
deriving DecidableEq

instance instDecEqExcept {ε β : Type} [DecidableEq ε] [DecidableEq β] :
    DecidableEq (Except ε β) := fun a b =>
  match a, b with
  | Except.error e, Except.error f =>
    match decEq e f with
    | isTrue h => isTrue (congrArg Except.error h)
    | isFalse h => isFalse (fun hc => h (Except.error.inj hc))
  | Except.error _, Except.ok _ => isFalse (fun hc => Except.noConfusion hc)
  | Except.ok _, Except.error _ => isFalse (fun hc => Except.noConfusion hc)
  | Except.ok x, Except.ok y =>
    match decEq x y with
    | isTrue h => isTrue (congrArg Except.ok h)
    | isFalse h => isFalse (fun hc => h (Except.ok.inj hc))

/-- Items of rank `r`'s payload. -/
def itemsAt (datas : List (RankData α)) (r : Nat) : List α :=
  (datas.getD r RankData.dfl).items

/-- Rank `r`'s contiguous send buffer `data.take(self.indices, axis=0)`. -/
def bufferAt [Inhabited α] (L : Layout) (datas : List (RankData α)) (r : Nat) : List α :=
  (L.idx r).map (fun i => (itemsAt datas r).getD i default)

/-- The block of `sendcounts[s][r]` items, starting at `sendoffsets[s][r]`,
that the `Alltoallv` reads from rank `s`'s send buffer for rank `r`. -/
def sendSeg [Inhabited α] (L : Layout) (datas : List (RankData α)) (s r : Nat) : List α :=
  seg (bufferAt L datas s) ((L.sendoff s).getD r 0) ((L.sendrow s).getD r 0)

/-- Rank `r`'s receive buffer after the `Alltoallv`: the per-source
blocks land at the receive offsets, i.e. concatenated in ascending
source-rank order. -/
def recvItems [Inhabited α] (L : Layout) (datas : List (RankData α)) (r : Nat) : List α :=
  ((List.range L.size).map (fun s => sendSeg L datas s r)).flatten

/-- True when every stored gather index is a valid leading-axis index of
the local payload, i.e. `data.take(self.indices, axis=0)` raises no
index error on any rank. -/
def idxOk (L : Layout) (datas : List (RankData α)) : Bool :=
  (List.range L.size).all (fun r => (L.idx r).all (fun i => i < (itemsAt datas r).length))

/-- Global model of `Layout.exchange`, following the code line by line:
first the collective `allgather` of `data.dtype.str` with
`len(set(dtypes)) != 1` raising a `TypeError`; then the gather
`data.take(self.indices, axis=0)` (an out-of-range index raises); then
the `Alltoallv` into a freshly allocated `recvbuffer` whose leading
length is `self.newlength` and whose trailing shape and dtype are those
of `data`.  No check relates `data`'s leading length to `oldlength`. -/
def exchange [Inhabited α] (L : Layout) (datas : List (RankData α)) :
    Except ExchError (List (RankData α)) :=
  let dtypes := datas.map (fun d => d.dtypeStr)
  if dtypes.dedup.length ≠ 1 then
    Except.error (ExchError.typeMismatch dtypes)
  else if idxOk L datas then
    Except.ok ((List.range L.size).map (fun r =>
      { dtypeStr := (datas.getD r RankData.dfl).dtypeStr
        trailingShape := (datas.getD r RankData.dfl).trailingShape
        items := recvItems L datas r }))
  else
    Except.error ExchError.indexOutOfRange

/-- The layout with send and receive roles swapped: the send-count rows
become the (collectively obtained) receive-count rows, and the gather
index sequence is the identity on the received array of length
`newlength`, so the received data is sent back as-is. -/
def Layout.swap (L : Layout) : Layout :=
  { size := L.size
    sendcounts := (List.range L.size).map (fun r => L.recvrow r)
    indices := (List.range L.size).map (fun r => List.range (L.newlength r)) }

theorem Layout.recvrow_length (L : Layout) (r : Nat) : (L.recvrow r).length = L.size := by
  simp [Layout.recvrow]

theorem Layout.sendrow_length_of_wf (L : Layout) (h : L.WF) (r : Nat) (hr : r < L.size) :
    (L.sendrow r).length = L.size := (h.2.2 r hr).1

theorem bufferAt_length [Inhabited α] (L : Layout) (datas : List (RankData α)) (r : Nat) :
    (bufferAt L datas r).length = (L.idx r).length := by
  simp [bufferAt]

theorem sendSeg_length [Inhabited α] (L : Layout) (datas : List (RankData α)) (s r : Nat)
    (hWF : L.WF) (hs : s < L.size) (hr : r < L.size) :
    (sendSeg L datas s r).length = (L.sendrow s).getD r 0 := by
  have hrow : (L.sendrow s).length = L.size := (hWF.2.2 s hs).1
  have hidx : (L.idx s).length = L.oldlength s := (hWF.2.2 s hs).2
  have hlt : r < (L.sendrow s).length := by rw [hrow]; exact hr
  have hoff : (L.sendoff s).getD r 0 = ((L.sendrow s).take r).sum :=
    offsetsOf_getD _ _ hlt
  apply seg_length
  rw [hoff, bufferAt_length, hidx]
  exact sum_take_add_getD_le _ _ hlt

theorem recvItems_length [Inhabited α] (L : Layout) (datas : List (RankData α)) (r : Nat)
    (hWF : L.WF) (hr : r < L.size) :
    (recvItems L datas r).length = L.newlength r := by
  rw [recvItems, List.length_flatten, List.map_map, Layout.newlength, Layout.recvrow]
  congr 1
  apply List.map_congr_left
  intro s hs
  have hs' : s < L.size := List.mem_range.mp hs
  exact sendSeg_length L datas s r hWF hs' hr

/-- Claim C8.  For a well-formed layout on any rank `r`: the send and
receive offsets are the exclusive running sums of the send and receive
counts, `oldlength` and `newlength` are the sums of the send and receive
counts, and whenever `exchange` returns an array it is a fresh array
whose leading length is `newlength` and whose trailing shape and element
type are those of the rank's input payload. -/
theorem layout_offsets_and_exchange_shape {α : Type} [Inhabited α]
    (L : Layout) (datas : List (RankData α)) (r : Nat)
    (hWF : L.WF) (hr : r < L.size) :
    ((∀ k, k < L.size → (L.sendoff r).getD k 0 = ((L.sendrow r).take k).sum) ∧
     (∀ k, k < L.size → (L.recvoff r).getD k 0 = ((L.recvrow r).take k).sum) ∧
     L.oldlength r = (L.sendrow r).sum ∧
     L.newlength r = (L.recvrow r).sum) ∧
    (∀ out, exchange L datas = Except.ok out →
      ((out.getD r RankData.dfl).items.length = L.newlength r ∧
       (out.getD r RankData.dfl).dtypeStr = (datas.getD r RankData.dfl).dtypeStr ∧
       (out.getD r RankData.dfl).trailingShape = (datas.getD r RankData.dfl).trailingShape)) := by
  constructor
  · refine ⟨fun k hk => ?_, fun k hk => ?_, rfl, rfl⟩
    · exact offsetsOf_getD _ _ (by rw [Layout.sendrow_length_of_wf L hWF r hr]; exact hk)
    · exact offsetsOf_getD _ _ (by rw [Layout.recvrow_length]; exact hk)
  · intro out hout
    rw [exchange] at hout
    by_cases hdt : (datas.map (fun d => d.dtypeStr)).dedup.length ≠ 1
    · simp [hdt] at hout
    · simp only [hdt, if_false] at hout
      by_cases hix : idxOk L datas
      · simp only [hix, if_true] at hout
        injection hout with hmap
        have hget : out.getD r RankData.dfl =
            { dtypeStr := (datas.getD r RankData.dfl).dtypeStr
              trailingShape := (datas.getD r RankData.dfl).trailingShape
              items := recvItems L datas r } := by
          rw [← hmap]
          exact getD_map_range _ _ _ _ hr
        rw [hget]
        exact ⟨recvItems_length L datas r hWF hr, rfl, rfl⟩
      · simp [hix] at hout

/-- Claim C8, witness: a concrete two-rank layout and payload on which
the theorem's hypotheses hold and `exchange` returns an array of leading
length `newlength = 3` on rank 0. -/
theorem layout_offsets_and_exchange_shape_w :
    (([(⟨"d", [], [10, 20, 30]⟩ : RankData Int), ⟨"d", [], [20]⟩].getD 0
        RankData.dfl).items.length =
      (⟨2, [[1, 0], [2, 1]], [[0], [0, 1, 0]]⟩ : Layout).newlength 0 ∧
     ([(⟨"d", [], [10, 20, 30]⟩ : RankData Int), ⟨"d", [], [20]⟩].getD 0
        RankData.dfl).dtypeStr =
      (([(⟨"d", [], ([10] : List Int)⟩ : RankData Int), ⟨"d", [], [20, 30]⟩]).getD 0
        RankData.dfl).dtypeStr ∧
     ([(⟨"d", [], [10, 20, 30]⟩ : RankData Int), ⟨"d", [], [20]⟩].getD 0
        RankData.dfl).trailingShape =
      (([(⟨"d", [], ([10] : List Int)⟩ : RankData Int), ⟨"d", [], [20, 30]⟩]).getD 0
        RankData.dfl).trailingShape) :=
  (layout_offsets_and_exchange_shape
      (⟨2, [[1, 0], [2, 1]], [[0], [0, 1, 0]]⟩ : Layout)
      ([⟨"d", [], ([10] : List Int)⟩, ⟨"d", [], [20, 30]⟩])
      0 (by decide) (by decide)).2
    ([⟨"d", [], [10, 20, 30]⟩, ⟨"d", [], [20]⟩]) (by decide)

/-- Claim C1, counterexample.  `exchange` performs no validation of the
payload's leading length: here the single-rank payload has leading
length 2 while `oldlength = 1`, yet the exchange succeeds (no
`LengthMismatchError`, no error at all). -/
theorem exchange_no_length_check_cex :
    (itemsAt ([⟨"<f8", [], ([5, 7] : List Int)⟩]) 0).length ≠
      (⟨1, [[1]], [[0]]⟩ : Layout).oldlength 0 ∧
    exchange (⟨1, [[1]], [[0]]⟩ : Layout) ([⟨"<f8", [], ([5, 7] : List Int)⟩]) =
      Except.ok [⟨"<f8", [], [5]⟩] := by
  decide

/-- Claim C1, amended.  `exchange` never fails with a length-mismatch
error (the code contains no such check; its docstring merely obliges the
caller to pass data of the layout-building length), and whenever the
dtype descriptors agree and every stored index is in range it returns an
exchanged array regardless of the payload's leading length. -/
theorem exchange_no_length_validation {α : Type} [Inhabited α]
    (L : Layout) (datas : List (RankData α)) :
    (exchange L datas ≠ Except.error ExchError.lengthMismatch) ∧
    ((datas.map (fun d => d.dtypeStr)).dedup.length = 1 → idxOk L datas = true →
      ∃ out, exchange L datas = Except.ok out) := by
  constructor
  · rw [exchange]
    by_cases hdt : (datas.map (fun d => d.dtypeStr)).dedup.length ≠ 1
    · simp [hdt]
    · by_cases hix : idxOk L datas <;> simp [hdt, hix]
  · intro hdt hix
    rw [exchange]
    simp [hdt, hix]

/-- Claim C1, witness: the amended theorem applied to the mismatched
payload of the counterexample, showing the exchange still succeeds. -/
theorem exchange_no_length_validation_w :
    ∃ out, exchange (⟨1, [[1]], [[0]]⟩ : Layout) ([⟨"<f8", [], ([5, 7] : List Int)⟩]) =
      Except.ok out :=
  (exchange_no_length_validation (⟨1, [[1]], [[0]]⟩ : Layout)
    ([⟨"<f8", [], ([5, 7] : List Int)⟩])).2 (by decide) (by decide)

/-- Claim C7, counterexample.  The dtype check compares only
`data.dtype.str`: here the two ranks pass payloads with the same dtype
string but different trailing shapes, and the exchange proceeds without
raising any error. -/
theorem exchange_shape_not_validated_cex :
    (([(⟨"<f8", [3], ([5] : List Int)⟩ : RankData Int), ⟨"<f8", [2], [9]⟩].getD 0
        RankData.dfl).trailingShape ≠
      ([(⟨"<f8", [3], ([5] : List Int)⟩ : RankData Int), ⟨"<f8", [2], [9]⟩].getD 1
        RankData.dfl).trailingShape) ∧
    exchange (⟨2, [[1, 0], [0, 1]], [[0], [0]]⟩ : Layout)
        ([⟨"<f8", [3], ([5] : List Int)⟩, ⟨"<f8", [2], [9]⟩]) =
      Except.ok [⟨"<f8", [3], [5]⟩, ⟨"<f8", [2], [9]⟩] := by
  decide

/-- Claim C7, amended.  `exchange` gathers each rank's element-type
descriptor string only and raises the type-mismatch error, naming the
gathered descriptors, exactly when those strings do not all agree; the
trailing shape of the payloads is not part of the validation. -/
theorem exchange_type_check_iff {α : Type} [Inhabited α]
    (L : Layout) (datas : List (RankData α)) :
    exchange L datas =
        Except.error (ExchError.typeMismatch (datas.map (fun d => d.dtypeStr))) ↔
      (datas.map (fun d => d.dtypeStr)).dedup.length ≠ 1 := by
  rw [exchange]
  by_cases hdt : (datas.map (fun d => d.dtypeStr)).dedup.length ≠ 1
  · simp [hdt]
  · by_cases hix : idxOk L datas <;> simp [hdt, hix]

theorem dtypeStr_getD_map (datas : List (RankData α)) (r : Nat) :
    (datas.getD r RankData.dfl).dtypeStr = (datas.map (fun d => d.dtypeStr)).getD r "" := by
  rw [List.getD_eq_getElem?_getD, List.getD_eq_getElem?_getD, List.getElem?_map]
  cases datas[r]? <;> rfl

theorem idxOk_of_perm [Inhabited α] (L : Layout) (datas : List (RankData α))
    (hperm : ∀ r, r < L.size → (L.idx r).Perm (List.range (itemsAt datas r).length)) :
    idxOk L datas = true := by
  rw [idxOk, List.all_eq_true]
  intro r hrmem
  rw [List.all_eq_true]
  intro i himem
  have hr : r < L.size := List.mem_range.mp hrmem
  have : i ∈ List.range (itemsAt datas r).length := ((hperm r hr).mem_iff).mp himem
  simpa using List.mem_range.mp this

theorem exchange_ok_of_checks [Inhabited α] (L : Layout) (datas : List (RankData α))
    (hdt : (datas.map (fun d => d.dtypeStr)).dedup.length = 1)
    (hix : idxOk L datas = true) :
    exchange L datas = Except.ok ((List.range L.size).map (fun r =>
      { dtypeStr := (datas.getD r RankData.dfl).dtypeStr
        trailingShape := (datas.getD r RankData.dfl).trailingShape
        items := recvItems L datas r })) := by
  rw [exchange]
  simp [hdt, hix]

theorem Layout.swap_size (L : Layout) : L.swap.size = L.size := rfl

theorem Layout.swap_sendrow (L : Layout) (r : Nat) (hr : r < L.size) :
    L.swap.sendrow r = L.recvrow r := by
  rw [Layout.sendrow, Layout.swap]
  exact getD_map_range _ _ _ _ hr

theorem Layout.swap_idx (L : Layout) (r : Nat) (hr : r < L.size) :
    L.swap.idx r = List.range (L.newlength r) := by
  rw [Layout.idx, Layout.swap]
  exact getD_map_range _ _ _ _ hr

theorem Layout.swap_recvrow (L : Layout) (hWF : L.WF) (r : Nat) (hr : r < L.size) :
    L.swap.recvrow r = L.sendrow r := by
  rw [Layout.recvrow, Layout.swap_size]
  have hcong : (List.range L.size).map (fun s => (L.swap.sendrow s).getD r 0) =
      (List.range L.size).map (fun s => (L.sendrow r).getD s 0) := by
    apply List.map_congr_left
    intro s hs
    have hs' : s < L.size := List.mem_range.mp hs
    rw [L.swap_sendrow s hs', Layout.recvrow]
    exact getD_map_range _ _ _ _ hr
  rw [hcong]
  have hlen : (L.sendrow r).length = L.size := (hWF.2.2 r hr).1
  rw [← hlen]
  exact map_getD_range _ _

theorem Layout.swap_wf (L : Layout) : L.swap.WF := by
  refine ⟨by simp [Layout.swap], by simp [Layout.swap], fun r hr => ?_⟩
  rw [Layout.swap_size] at hr
  constructor
  · rw [L.swap_sendrow r hr, Layout.swap_size]
    exact L.recvrow_length r
  · rw [L.swap_idx r hr, Layout.oldlength, L.swap_sendrow r hr]
    simp [Layout.newlength]

/-- After a successful forward exchange, rank `r` holds exactly the
receive buffer `recvItems`. -/
theorem fwd_items (L : Layout) [Inhabited α] (datas : List (RankData α)) (r : Nat)
    (hr : r < L.size) :
    itemsAt ((List.range L.size).map (fun t =>
      ({ dtypeStr := (datas.getD t RankData.dfl).dtypeStr
         trailingShape := (datas.getD t RankData.dfl).trailingShape
         items := recvItems L datas t } : RankData α))) r = recvItems L datas r := by
  rw [itemsAt, getD_map_range _ _ _ _ hr]

/-- The slice of rank `s`'s received buffer that the swapped-role layout
sends back to rank `r` is exactly the block rank `r` originally sent to
rank `s`. -/
theorem swap_sendSeg [Inhabited α] (L : Layout) (datas : List (RankData α)) (s r : Nat)
    (hWF : L.WF) (hs : s < L.size) (hr : r < L.size)
    (fwd : List (RankData α))
    (hfwd : ∀ t, t < L.size → itemsAt fwd t = recvItems L datas t) :
    sendSeg L.swap fwd s r = sendSeg L datas r s := by
  have hbuf : bufferAt L.swap fwd s = recvItems L datas s := by
    rw [bufferAt, L.swap_idx s hs, hfwd s hs]
    have hlen : L.newlength s = (recvItems L datas s).length :=
      (recvItems_length L datas s hWF hs).symm
    rw [hlen]
    exact map_getD_range _ _
  have hoffld : (L.swap.sendoff s).getD r 0 = ((L.recvrow s).take r).sum := by
    rw [Layout.sendoff, L.swap_sendrow s hs]
    exact offsetsOf_getD _ _ (by rw [L.recvrow_length]; exact hr)
  have hcnt : (L.swap.sendrow s).getD r 0 = (L.sendrow r).getD s 0 := by
    rw [L.swap_sendrow s hs, Layout.recvrow]
    exact getD_map_range _ _ _ _ hr
  rw [sendSeg, hbuf, hoffld, hcnt]
  set B : List (List α) := (List.range L.size).map (fun t => sendSeg L datas t s) with hB
  have hBlen : B.length = L.size := by simp [hB]
  have hgetB : B.getD r [] = sendSeg L datas r s := by
    rw [hB]; exact getD_map_range _ _ _ _ hr
  have hofs : ((L.recvrow s).take r).sum = ((B.take r).map List.length).sum := by
    have h1 : (L.recvrow s).take r = (List.range r).map (fun t => (L.sendrow t).getD s 0) := by
      rw [Layout.recvrow, ← List.map_take, List.take_range,
        Nat.min_eq_left (Nat.le_of_lt hr)]
    have h2 : (B.take r).map List.length =
        (List.range r).map (fun t => (L.sendrow t).getD s 0) := by
      rw [hB, ← List.map_take, List.take_range, Nat.min_eq_left (Nat.le_of_lt hr),
        List.map_map]
      apply List.map_congr_left
      intro t ht
      have ht' : t < L.size := Nat.lt_of_lt_of_le (List.mem_range.mp ht) (Nat.le_of_lt hr)
      exact sendSeg_length L datas t s hWF ht' hs
    rw [h1, h2]
  have hcntB : (L.sendrow r).getD s 0 = (B.getD r []).length := by
    rw [hgetB, sendSeg_length L datas r s hWF hr hs]
  rw [recvItems, ← hB, hofs, hcntB, seg_flatten_block B r (by rw [hBlen]; exact hr), hgetB]

/-- Sending every received block back through the swapped-role layout
reassembles rank `r`'s original contiguous send buffer. -/
theorem swap_recvItems [Inhabited α] (L : Layout) (datas : List (RankData α)) (r : Nat)
    (hWF : L.WF) (hr : r < L.size)
    (fwd : List (RankData α))
    (hfwd : ∀ t, t < L.size → itemsAt fwd t = recvItems L datas t) :
    recvItems L.swap fwd r = bufferAt L datas r := by
  rw [recvItems, Layout.swap_size]
  have hcong : (List.range L.size).map (fun s => sendSeg L.swap fwd s r) =
      (List.range L.size).map (fun s => sendSeg L datas r s) := by
    apply List.map_congr_left
    intro s hs
    exact swap_sendSeg L datas s r hWF (List.mem_range.mp hs) hr fwd hfwd
  rw [hcong]
  have hrowlen : (L.sendrow r).length = L.size := (hWF.2.2 r hr).1
  have hsum : (L.sendrow r).sum = (bufferAt L datas r).length := by
    rw [bufferAt_length, (hWF.2.2 r hr).2, Layout.oldlength]
  have hcong2 : (List.range L.size).map (fun s => sendSeg L datas r s) =
      (List.range (L.sendrow r).length).map (fun k =>
        seg (bufferAt L datas r) (((L.sendrow r).take k).sum) ((L.sendrow r).getD k 0)) := by
    rw [hrowlen]
    apply List.map_congr_left
    intro s hs
    rw [sendSeg, Layout.sendoff, offsetsOf_getD _ _ (by rw [hrowlen]; exact List.mem_range.mp hs)]
  rw [hcong2]
  exact seg_flatten_partition (L.sendrow r) (bufferAt L datas r) hsum

/-- Claim C4.  With a bijective item mapping (each rank's index sequence
a permutation of its payload's index range, as produced by a radius-0
decomposition), exchanging a payload and then exchanging the result
through the layout with send and receive roles swapped restores every
rank's original payload content up to intra-block order. -/
theorem exchange_roundtrip_perm {α : Type} [Inhabited α]
    (L : Layout) (datas : List (RankData α))
    (hWF : L.WF) (hlen : datas.length = L.size)
    (hperm : ∀ r, r < L.size → (L.idx r).Perm (List.range (itemsAt datas r).length))
    (hdt : (datas.map (fun d => d.dtypeStr)).dedup.length = 1) :
    ∃ fwd back,
      exchange L datas = Except.ok fwd ∧
      exchange L.swap fwd = Except.ok back ∧
      ∀ r, r < L.size → ((back.getD r RankData.dfl).items).Perm (itemsAt datas r) := by
  set fwd : List (RankData α) := (List.range L.size).map (fun t =>
    { dtypeStr := (datas.getD t RankData.dfl).dtypeStr
      trailingShape := (datas.getD t RankData.dfl).trailingShape
      items := recvItems L datas t }) with hfwddef
  have hfwd : exchange L datas = Except.ok fwd :=
    exchange_ok_of_checks L datas hdt (idxOk_of_perm L datas hperm)
  have hfwdItems : ∀ t, t < L.size → itemsAt fwd t = recvItems L datas t := by
    intro t ht
    rw [hfwddef]
    exact fwd_items L datas t ht
  have hfwddt : fwd.map (fun d => d.dtypeStr) = datas.map (fun d => d.dtypeStr) := by
    rw [hfwddef, List.map_map]
    have : (List.range L.size).map
        ((fun d => RankData.dtypeStr d) ∘ (fun t =>
          ({ dtypeStr := (datas.getD t RankData.dfl).dtypeStr
             trailingShape := (datas.getD t RankData.dfl).trailingShape
             items := recvItems L datas t } : RankData α))) =
        (List.range L.size).map (fun t => (datas.map (fun d => d.dtypeStr)).getD t "") := by
      apply List.map_congr_left
      intro t _
      exact dtypeStr_getD_map datas t
    rw [this, ← hlen, ← List.length_map datas (fun d => d.dtypeStr)]
    exact map_getD_range _ _
  have hswapix : idxOk L.swap fwd = true := by
    rw [idxOk, List.all_eq_true]
    intro r hrmem
    rw [List.all_eq_true]
    intro i himem
    have hr : r < L.size := by
      simpa [Layout.swap_size] using List.mem_range.mp hrmem
    rw [L.swap_idx r hr] at himem
    have hi : i < L.newlength r := List.mem_range.mp himem
    rw [hfwdItems r hr]
    simpa [recvItems_length L datas r hWF hr] using hi
  have hback : exchange L.swap fwd = Except.ok ((List.range L.swap.size).map (fun t =>
      { dtypeStr := (fwd.getD t RankData.dfl).dtypeStr
        trailingShape := (fwd.getD t RankData.dfl).trailingShape
        items := recvItems L.swap fwd t })) := by
    apply exchange_ok_of_checks L.swap fwd _ hswapix
    rw [hfwddt]
    exact hdt
  refine ⟨fwd, _, hfwd, hback, ?_⟩
  intro r hr
  have hget : (((List.range L.swap.size).map (fun t =>
      ({ dtypeStr := (fwd.getD t RankData.dfl).dtypeStr
         trailingShape := (fwd.getD t RankData.dfl).trailingShape
         items := recvItems L.swap fwd t } : RankData α))).getD r RankData.dfl).items =
      recvItems L.swap fwd r := by
    rw [Layout.swap_size, getD_map_range _ _ _ _ hr]
  rw [hget, swap_recvItems L datas r hWF hr fwd hfwdItems]
  have hmapped : bufferAt L datas r =
      (L.idx r).map (fun i => (itemsAt datas r).getD i default) := rfl
  rw [hmapped]
  have hp := (hperm r hr).map (fun i => (itemsAt datas r).getD i default)
  have hfull : (List.range (itemsAt datas r).length).map
      (fun i => (itemsAt datas r).getD i default) = itemsAt datas r := map_getD_range _ _
  rw [hfull] at hp
  exact hp

/-- Claim C4, witness: a concrete two-rank layout whose index sequences
are permutations; the round trip restores each rank's items as a
multiset. -/
theorem exchange_roundtrip_perm_w :
    ∃ fwd back,
      exchange (⟨2, [[1, 1], [1, 1]], [[1, 0], [0, 1]]⟩ : Layout)
          ([⟨"d", [], ([10, 20] : List Int)⟩, ⟨"d", [], [30, 40]⟩]) = Except.ok fwd ∧
      exchange (⟨2, [[1, 1], [1, 1]], [[1, 0], [0, 1]]⟩ : Layout).swap fwd = Except.ok back ∧
      ∀ r, r < (⟨2, [[1, 1], [1, 1]], [[1, 0], [0, 1]]⟩ : Layout).size →
        ((back.getD r RankData.dfl).items).Perm
          (itemsAt ([⟨"d", [], ([10, 20] : List Int)⟩, ⟨"d", [], [30, 40]⟩]) r) :=
  exchange_roundtrip_perm (⟨2, [[1, 1], [1, 1]], [[1, 0], [0, 1]]⟩ : Layout)
    ([⟨"d", [], ([10, 20] : List Int)⟩, ⟨"d", [], [30, 40]⟩])
    (by decide) (by decide) (by decide) (by decide)

/-! ## GridND (`domain.py` lines 97-183): grid decomposition

Positions are embedded as rationals.  `digitize` models
`numpy.digitize(x, bins)` on the sorted edge arrays `GridND` requires:
it returns the number of bin edges that are `≤ x`.  `ratMod` models
`numpy.remainder` for a positive modulus, `clip` models `numpy.clip`,
and `toI16` models the `i2` (int16) storage of the `sil`/`sir` bin-index
arrays. -/

/-- Number of bin edges `≤ x`; equals `numpy.digitize(x, bins)` for a
monotonically nondecreasing `bins`. -/
def digitize (x : ℚ) : List ℚ → Nat
  | [] => 0
  | b :: bs => (if b ≤ x then 1 else 0) + digitize x bs

/-- The `numpy.remainder(x, m)` value for positive `m`:
`x - m * floor(x / m)`, in `[0, m)`. -/
def ratMod (x m : ℚ) : ℚ := x - m * ((⌊x / m⌋ : ℤ) : ℚ)

/-- The `numpy.clip(v, lo, hi)` value. -/
def clip (v lo hi : ℤ) : ℤ := min (max v lo) hi

/-- Wraparound of an integer into the range of a 16-bit signed value, as
happens when a bin index is stored into the `i2`-typed `sil`/`sir`
arrays. -/
def toI16 (z : ℤ) : ℤ := (z + 32768) % 65536 - 32768

/-- The spatial grid handed to `GridND.__init__`: one nondecreasing edge
sequence per dimension (`grid[j][-1]` is the box size), plus the
periodic flag. -/
structure Grid where
  edges : List (List ℚ)
  periodic : Bool
deriving DecidableEq

namespace Grid

/-- Number of dimensions (`len(self.dims)`). -/
def ndim (g : Grid) : Nat := g.edges.length

/-- Edge sequence of dimension `j` (`self.grid[j]`). -/
def edgesAt (g : Grid) (j : Nat) : List ℚ := g.edges.getD j []

/-- `self.dims[j] = len(grid[j]) - 1`. -/
def dimAt (g : Grid) (j : Nat) : Nat := (g.edgesAt j).length - 1

/-- `self.grid[j][-1]`, the box size of dimension `j`. -/
def extentAt (g : Grid) (j : Nat) : ℚ := (g.edgesAt j).getD ((g.edgesAt j).length - 1) 0

end Grid

/-- The per-dimension coordinate wrap of `decompose`: under the periodic
flag `numpy.remainder(posT[j], self.grid[j][-1])`, otherwise the raw
coordinate. -/
def wrapped (g : Grid) (j : Nat) (x : ℚ) : ℚ :=
  if g.periodic then ratMod x (g.extentAt j) else x

/-- The stored lower bin index of a particle in dimension `j`:
`sil[j] = digitize(tmp - smoothing, grid[j]) - 1` stored as `i2`, then
`clip(sil, 0, dims[j])` in place when non-periodic. -/
def silOf (g : Grid) (j : Nat) (x s : ℚ) : ℤ :=
  let raw := toI16 ((digitize (wrapped g j x - s) (g.edgesAt j) : ℤ) - 1)
  if g.periodic then raw else clip raw 0 ((g.dimAt j : ℤ))

/-- The stored upper bin index of a particle in dimension `j`:
`sir[j] = digitize(tmp + smoothing, grid[j])` stored as `i2`, then
`clip(sir, 0, dims[j])` in place when non-periodic. -/
def sirOf (g : Grid) (j : Nat) (x s : ℚ) : ℤ :=
  let raw := toI16 ((digitize (wrapped g j x + s) (g.edgesAt j) : ℤ))
  if g.periodic then raw else clip raw 0 ((g.dimAt j : ℤ))

/-- Modelled from the spec: the Cython kernel `_domain.gridnd_fill` is
not among the sources, so the half-open per-dimension bin range
`[sil, sir)` it enumerates is taken from the spec's description of the
assignment kernel. -/
def binsAt (g : Grid) (j : Nat) (x s : ℚ) : List ℤ :=
  (List.range (sirOf g j x s - silOf g j x s).toNat).map (fun k => silOf g j x s + (k : ℤ))

/-- Modelled from the spec: Cartesian product of the per-dimension bin
ranges, giving a particle's destination bin tuples. -/
def tupleProd : List (List ℤ) → List (List ℤ)
  | [] => [[]]
  | l :: ls => (l.map (fun a => (tupleProd ls).map (fun t => a :: t))).flatten

/-- Modelled from the spec: per-dimension modulo wrap of a bin index
onto the rank mesh, applied only in periodic mode. -/
def wrapBin (g : Grid) (j : Nat) (b : ℤ) : Nat :=
  if g.periodic then (b % ((g.dimAt j : ℤ))).toNat else b.toNat

/-- Modelled from the spec: a bin tuple mapped to a flat rank with the
fixed mixed-radix convention of `numpy.unravel_index` (last dimension
fastest-varying). -/
def flatRank (g : Grid) (t : List ℤ) : Nat :=
  (List.range g.ndim).foldl (fun acc j => acc * g.dimAt j + wrapBin g j (t.getD j 0)) 0

/-- Coordinate `j` of a particle (`posT[j][i] = pos[i][j]`). -/
def coordAt (p : List ℚ) (j : Nat) : ℚ := p.getD j 0

/-- Modelled from the spec: the full list of destination ranks of one
particle, one entry per bin tuple of the Cartesian product of the
per-dimension ranges `[sil_j, sir_j)`. -/
def destRanks (g : Grid) (p : List ℚ) (s : ℚ) : List Nat :=
  (tupleProd ((List.range g.ndim).map (fun j => binsAt g j (coordAt p j) s))).map (flatRank g)

/-- Modelled from the spec: pass 1 of `gridnd_fill` — the
per-destination-rank occurrence counts over the particle batch. -/
def countsOf (g : Grid) (size : Nat) (pos : List (List ℚ)) (s : ℚ) : List Nat :=
  (List.range size).map (fun k =>
    ((List.range pos.length).map (fun i => (destRanks g (pos.getD i []) s).count k)).sum)

/-- Modelled from the spec: pass 2 of `gridnd_fill` — the index
sequence, each particle's source index placed once per destination rank
into that rank's contiguous block, blocks in ascending rank order and
insertion order within a block. -/
def indicesOf (g : Grid) (size : Nat) (pos : List (List ℚ)) (s : ℚ) : List Nat :=
  ((List.range size).map (fun k =>
    ((List.range pos.length).map (fun i =>
      List.replicate ((destRanks g (pos.getD i []) s).count k) i)).flatten)).flatten

/-- Failure mode of `GridND.decompose`: the capacity assertion
`assert len(pos) < 1024 * 1024 * 1024 * 2`. -/
inductive DomErr where
  | capacity : DomErr
deriving DecidableEq

/-- The counts + index sequence from which `decompose` builds its
`Layout`. -/
structure AssignResult where
  counts : List Nat
  indices : List Nat
deriving DecidableEq

/-- Model of `GridND.decompose` on a process mesh of `size` ranks: the
capacity assertion on `len(pos)` first; then, when the batch is
nonempty, the two-pass count/fill kernel; a zero-particle batch keeps
the all-zero `numpy.zeros(comm.size)` counts and an empty index array
without touching the bin-index logic. -/
def decompose (g : Grid) (size : Nat) (pos : List (List ℚ)) (s : ℚ) :
    Except DomErr AssignResult :=
  if pos.length < 2147483648 then
    if pos.length ≠ 0 then
      Except.ok ⟨countsOf g size pos s, indicesOf g size pos s⟩
    else
      Except.ok ⟨List.replicate size 0, []⟩
  else
    Except.error DomErr.capacity

/-- The length of the index sequence `decompose` would produce: the sum
of the per-destination counts (one entry per particle per destination
rank). -/
def indexSeqLength (g : Grid) (size : Nat) (pos : List (List ℚ)) (s : ℚ) : Nat :=
  (countsOf g size pos s).sum

/-- Claim C2.  On the periodic 1-D grid with edges `[0, 1, 2, 3]` over 3
ranks, a particle at `2.95` with support radius `0.1` is assigned to
exactly the destination ranks `2` and `0` (the upper bin index `3` wraps
across the seam to rank `0`), never to rank `1`: `decompose` produces
the count vector `[1, 0, 1]` and index sequence `[0, 0]`. -/
theorem decompose_periodic_wrap_example :
    destRanks ⟨[[0, 1, 2, 3]], true⟩ [59/20] (1/10) = [2, 0] ∧
    decompose ⟨[[0, 1, 2, 3]], true⟩ 3 [[59/20]] (1/10) =
      Except.ok ⟨[1, 0, 1], [0, 0]⟩ := by
  have hd : destRanks ⟨[[0, 1, 2, 3]], true⟩ [59/20] (1/10) = [2, 0] := by
    norm_num [destRanks, Grid.ndim, coordAt, binsAt, silOf, sirOf, wrapped, ratMod,
      Grid.extentAt, Grid.edgesAt, Grid.dimAt, digitize, toI16, clip, tupleProd, flatRank,
      wrapBin, List.range_succ, List.range_zero, Int.toNat_ofNat]
    decide
  refine ⟨hd, ?_⟩
  rw [decompose]
  norm_num [countsOf, indicesOf, List.range_succ, List.range_zero, List.getD_cons_zero, hd]

/-- Claim C3.  On the same grid in non-periodic mode, a particle at
`-0.05` with support radius `0.1` has its lower bin index clamped from
`-1` to `0` while the upper index stays `1`, so it is assigned to
exactly rank `0` (the out-of-domain ghost extent is dropped without
wrapping and without an error): `decompose` succeeds with counts
`[1, 0, 0]` and index sequence `[0]`. -/
theorem decompose_nonperiodic_clamp_example :
    silOf ⟨[[0, 1, 2, 3]], false⟩ 0 (-(1/20)) (1/10) = 0 ∧
    sirOf ⟨[[0, 1, 2, 3]], false⟩ 0 (-(1/20)) (1/10) = 1 ∧
    destRanks ⟨[[0, 1, 2, 3]], false⟩ [-(1/20)] (1/10) = [0] ∧
    decompose ⟨[[0, 1, 2, 3]], false⟩ 3 [[-(1/20)]] (1/10) =
      Except.ok ⟨[1, 0, 0], [0]⟩ := by
  have hsil : silOf ⟨[[0, 1, 2, 3]], false⟩ 0 (-(1/20)) (1/10) = 0 := by
    norm_num [silOf, wrapped, Grid.edgesAt, Grid.dimAt, digitize, toI16, clip]
  have hsir : sirOf ⟨[[0, 1, 2, 3]], false⟩ 0 (-(1/20)) (1/10) = 1 := by
    norm_num [sirOf, wrapped, Grid.edgesAt, Grid.dimAt, digitize, toI16, clip]
  have hd : destRanks ⟨[[0, 1, 2, 3]], false⟩ [-(1/20)] (1/10) = [0] := by
    norm_num [destRanks, Grid.ndim, coordAt, binsAt, silOf, sirOf, wrapped, ratMod,
      Grid.extentAt, Grid.edgesAt, Grid.dimAt, digitize, toI16, clip, tupleProd, flatRank,
      wrapBin, List.range_succ, List.range_zero, Int.toNat_ofNat]
  refine ⟨hsil, hsir, hd, ?_⟩
  rw [decompose]
  norm_num [countsOf, indicesOf, List.range_succ, List.range_zero, List.getD_cons_zero, hd]

theorem digitize_le_length (x : ℚ) (e : List ℚ) : digitize x e ≤ e.length := by
  induction e with
  | nil => exact Nat.le_refl 0
  | cons b bs ih =>
    rw [digitize, List.length_cons]
    by_cases h : b ≤ x <;> simp [h] <;> omega

theorem digitize_mono (x y : ℚ) (e : List ℚ) (hxy : x ≤ y) :
    digitize x e ≤ digitize y e := by
  induction e with
  | nil => exact Nat.le_refl 0
  | cons b bs ih =>
    rw [digitize, digitize]
    by_cases hbx : b ≤ x
    · have hby : b ≤ y := le_trans hbx hxy
      simp [hbx, hby]
      omega
    · by_cases hby : b ≤ y <;> simp [hbx, hby] <;> omega

theorem digitize_eq_zero (x : ℚ) (e : List ℚ) (h : ∀ b ∈ e, x < b) :
    digitize x e = 0 := by
  induction e with
  | nil => rfl
  | cons b bs ih =>
    rw [digitize]
    have hb : ¬ b ≤ x := not_le.mpr (h b (List.mem_cons_self b bs))
    rw [if_neg hb, ih (fun c hc => h c (List.mem_cons_of_mem b hc))]

theorem digitize_eq_length (x : ℚ) (e : List ℚ) (h : ∀ b ∈ e, b ≤ x) :
    digitize x e = e.length := by
  induction e with
  | nil => rfl
  | cons b bs ih =>
    rw [digitize, List.length_cons,
      if_pos (h b (List.mem_cons_self b bs)), ih (fun c hc => h c (List.mem_cons_of_mem b hc))]
    omega

theorem sorted_head_le (e : List ℚ) (b : ℚ) (hs : List.Sorted (· ≤ ·) e) (hb : b ∈ e) :
    e.getD 0 0 ≤ b := by
  cases e with
  | nil => simp at hb
  | cons a t =>
    rw [List.getD_cons_zero]
    rcases List.mem_cons.mp hb with h | h
    · exact le_of_eq h.symm
    · exact List.rel_of_sorted_cons hs b h

theorem sorted_le_last (e : List ℚ) (b : ℚ) (hs : List.Sorted (· ≤ ·) e) (hb : b ∈ e) :
    b ≤ e.getD (e.length - 1) 0 := by
  induction e with
  | nil => simp at hb
  | cons a t ih =>
    cases t with
    | nil =>
      rw [List.mem_singleton] at hb
      simp [hb]
    | cons c u =>
      have hlast : (a :: c :: u).getD ((a :: c :: u).length - 1) 0 =
          (c :: u).getD ((c :: u).length - 1) 0 := by
        have h1 : (a :: c :: u).length - 1 = ((c :: u).length - 1) + 1 := by
          simp [List.length_cons]
        rw [h1, List.getD_cons_succ]
      rw [hlast]
      rcases List.mem_cons.mp hb with h | h
      · subst h
        have hmem : (c :: u).getD ((c :: u).length - 1) 0 ∈ (c :: u) := by
          have hlt : (c :: u).length - 1 < (c :: u).length := by simp
          rw [List.getD_eq_getElem?_getD, List.getElem?_eq_getElem hlt]
          exact List.getElem_mem hlt
        exact List.rel_of_sorted_cons hs _ hmem
      · exact ih hs.of_cons h

theorem toI16_eq_self (z : ℤ) (h1 : -32768 ≤ z) (h2 : z ≤ 32767) : toI16 z = z := by
  rw [toI16, Int.emod_eq_of_lt (by omega) (by omega)]
  omega

theorem binsAt_eq_nil (g : Grid) (j : Nat) (x s : ℚ)
    (h : silOf g j x s = sirOf g j x s) : binsAt g j x s = [] := by
  rw [binsAt, h, sub_self]
  rfl

theorem flatten_map_nil (l : List α) :
    (l.map (fun _ => ([] : List β))).flatten = [] := by
  induction l with
  | nil => rfl
  | cons x xs ih => simp [ih]

theorem tupleProd_of_mem_nil (ls : List (List ℤ)) (h : [] ∈ ls) : tupleProd ls = [] := by
  induction ls with
  | nil => simp at h
  | cons l ls ih =>
    rcases List.mem_cons.mp h with h0 | h0
    · rw [tupleProd, ← h0]
      rfl
    · rw [tupleProd, ih h0]
      simp only [List.map_nil]
      exact flatten_map_nil l

/-- Claim C10.  In non-periodic mode, a particle whose entire support
interval `[x - s, x + s]` lies outside the domain in some dimension `j`
(beyond the first edge or at-or-past the last edge, under the half-open
bin convention) gets equal clamped lower and upper bin indices there, an
empty bin range, and hence an empty destination-rank list: `decompose`
silently drops it, returning all-zero counts and an empty index
sequence with no error.  With radius `0` this covers any coordinate
below the first edge or at-or-above the domain extent. -/
theorem decompose_outside_dropped (g : Grid) (p : List ℚ) (s : ℚ) (j : Nat) (size : Nat)
    (hper : g.periodic = false) (hj : j < g.ndim)
    (hne : 1 ≤ (g.edgesAt j).length)
    (hsorted : List.Sorted (· ≤ ·) (g.edgesAt j))
    (hlen16 : (g.edgesAt j).length ≤ 32767)
    (hs : 0 ≤ s)
    (hout : coordAt p j + s < (g.edgesAt j).getD 0 0 ∨
      (g.edgesAt j).getD ((g.edgesAt j).length - 1) 0 ≤ coordAt p j - s) :
    silOf g j (coordAt p j) s = sirOf g j (coordAt p j) s ∧
    destRanks g p s = [] ∧
    decompose g size [p] s = Except.ok ⟨List.replicate size 0, []⟩ := by
  set x := coordAt p j with hx
  set e := g.edgesAt j with he
  have hwrap : wrapped g j x = x := by
    rw [wrapped, hper]
    simp
  have hdimnn : (0 : ℤ) ≤ (g.dimAt j : ℤ) := Int.ofNat_nonneg _
  have hsilsir : silOf g j x s = sirOf g j x s := by
    rcases hout with hlow | hhigh
    · have hup : digitize (x + s) e = 0 :=
        digitize_eq_zero _ _ (fun b hb => lt_of_lt_of_le hlow (sorted_head_le e b hsorted hb))
      have hlo : digitize (x - s) e = 0 := by
        have hmono := digitize_mono (x - s) (x + s) e (by linarith)
        omega
      rw [silOf, sirOf, hper, hwrap, hlo, hup]
      simp only [Bool.false_eq_true, if_false]
      rw [toI16_eq_self _ (by norm_num) (by norm_num),
        toI16_eq_self _ (by norm_num) (by norm_num)]
      rw [clip, clip]
      omega
    · have hlo : digitize (x - s) e = e.length :=
        digitize_eq_length _ _ (fun b hb => le_trans (sorted_le_last e b hsorted hb) hhigh)
      have hup : digitize (x + s) e = e.length := by
        have hmono := digitize_mono (x - s) (x + s) e (by linarith)
        have hle := digitize_le_length (x + s) e
        omega
      have hdim : (g.dimAt j : ℤ) = (e.length : ℤ) - 1 := by
        rw [Grid.dimAt, ← he]
        omega
      rw [silOf, sirOf, hper, hwrap, hlo, hup]
      simp only [Bool.false_eq_true, if_false]
      rw [toI16_eq_self _ (by omega) (by omega), toI16_eq_self _ (by omega) (by omega)]
      rw [clip, clip, hdim]
      omega
  have hbins : binsAt g j x s = [] := binsAt_eq_nil g j x s hsilsir
  have hdest : destRanks g p s = [] := by
    rw [destRanks, tupleProd_of_mem_nil]
    · rfl
    · rw [List.mem_map]
      exact ⟨j, List.mem_range.mpr hj, by rw [← hx, hbins]⟩
  refine ⟨hsilsir, hdest, ?_⟩
  rw [decompose]
  have hcounts : countsOf g size [p] s = List.replicate size 0 := by
    rw [countsOf]
    have hcong : (List.range size).map (fun k =>
        ((List.range ([p] : List (List ℚ)).length).map
          (fun i => (destRanks g (([p] : List (List ℚ)).getD i []) s).count k)).sum) =
        (List.range size).map (fun _ => 0) := by
      apply List.map_congr_left
      intro k _
      have h1 : List.range ([p] : List (List ℚ)).length = [0] := by
        rw [List.length_singleton]
        decide
      rw [h1]
      simp [hdest]
    rw [hcong, List.map_const', List.length_range]
  have hidx : indicesOf g size [p] s = [] := by
    rw [indicesOf]
    have hcong : (List.range size).map (fun k =>
        ((List.range ([p] : List (List ℚ)).length).map
          (fun i => List.replicate ((destRanks g (([p] : List (List ℚ)).getD i []) s).count k)
            i)).flatten) =
        (List.range size).map (fun _ => ([] : List Nat)) := by
      apply List.map_congr_left
      intro k _
      have h1 : List.range ([p] : List (List ℚ)).length = [0] := by
        rw [List.length_singleton]
        decide
      rw [h1]
      simp [hdest]
    rw [hcong]
    exact flatten_map_nil _
  rw [hcounts, hidx]
  norm_num

/-- Claim C10, witness: on the non-periodic grid with edges
`[0, 1, 2, 3]`, the particle at coordinate `3` (the domain extent) with
radius `0` is sent to no rank and dropped without error. -/
theorem decompose_outside_dropped_w :
    silOf ⟨[[0, 1, 2, 3]], false⟩ 0 (coordAt [(3 : ℚ)] 0) 0 =
      sirOf ⟨[[0, 1, 2, 3]], false⟩ 0 (coordAt [(3 : ℚ)] 0) 0 ∧
    destRanks ⟨[[0, 1, 2, 3]], false⟩ [(3 : ℚ)] 0 = [] ∧
    decompose ⟨[[0, 1, 2, 3]], false⟩ 3 [[(3 : ℚ)]] 0 =
      Except.ok ⟨List.replicate 3 0, []⟩ :=
  decompose_outside_dropped ⟨[[0, 1, 2, 3]], false⟩ [(3 : ℚ)] 0 0 3
    rfl (by decide) (by decide) (by decide) (by decide) (by decide)
    (Or.inr (by norm_num [Grid.edgesAt, coordAt]))

/-- Claim C6, counterexample.  The capacity check is
`assert len(pos) < 2**31` on the input particle count, not on the
resulting index-sequence length: a batch of `2**31` copies of an
out-of-domain particle (whose index sequence would be empty, far below
any index-width ceiling) is nevertheless rejected. -/
theorem decompose_capacity_cex :
    decompose ⟨[[0, 1]], false⟩ 1 (List.replicate 2147483648 [(-1 : ℚ)]) 0 =
      Except.error DomErr.capacity ∧
    indexSeqLength ⟨[[0, 1]], false⟩ 1 (List.replicate 2147483648 [(-1 : ℚ)]) 0 = 0 := by
  constructor
  · rw [decompose]
    simp only [List.length_replicate]
    norm_num
  · rw [indexSeqLength, countsOf]
    have hdr : destRanks ⟨[[0, 1]], false⟩ [(-1 : ℚ)] 0 = [] := by
      norm_num [destRanks, Grid.ndim, coordAt, binsAt, silOf, sirOf, wrapped, ratMod,
        Grid.extentAt, Grid.edgesAt, Grid.dimAt, digitize, toI16, clip, tupleProd, flatRank,
        wrapBin, List.range_succ, List.range_zero, Int.toNat_ofNat]
    apply List.sum_eq_zero
    intro v hv
    rw [List.mem_map] at hv
    obtain ⟨k, hk, rfl⟩ := hv
    apply List.sum_eq_zero
    intro w hw
    rw [List.mem_map] at hw
    obtain ⟨i, hi, rfl⟩ := hw
    rw [List.mem_range, List.length_replicate] at hi
    rw [getD_replicate_lt _ _ _ _ hi, hdr]
    rfl

/-- Claim C6, amended.  `decompose` raises its capacity error exactly
when the input particle count reaches `2**31`, a bound checked on
`len(pos)` before any counts are computed; the resulting index-sequence
length (the sum of the per-destination counts) is never itself
validated, so it neither excuses a large batch nor triggers the error
for a small one. -/
theorem decompose_capacity_iff (g : Grid) (size : Nat) (pos : List (List ℚ)) (s : ℚ) :
    decompose g size pos s = Except.error DomErr.capacity ↔ 2147483648 ≤ pos.length := by
  rw [decompose]
  split_ifs with h h0
  · constructor
    · intro hc
      exact absurd hc (by simp)
    · intro hge
      exact absurd hge (by omega)
  · constructor
    · intro hc
      exact absurd hc (by simp)
    · intro hge
      exact absurd hge (by omega)
  · constructor
    · intro _
      omega
    · intro _
      rfl

/-- Claim C9.  For every grid, process count and smoothing radius, a
zero-particle batch makes `decompose` return the all-zero count vector
of length equal to the process count and an empty index sequence,
through the `Npoint == 0` branch that bypasses the bin-index logic. -/
theorem decompose_empty_batch (g : Grid) (size : Nat) (s : ℚ) :
    decompose g size [] s = Except.ok ⟨List.replicate size 0, []⟩ := by
  rw [decompose]
  norm_num

end Gaepsi
